import Mathlib

/-!
# Verification of the allele-frequency histogram core (`get_prob_dist`)

Shallow embedding of `src/collect_data.py`, lines 73-85.  The function takes
per-variant statistics (alternate-allele frequency, heterozygote count,
homozygous-alternate count) and bins the Hardy-Weinberg expected genotype
probabilities `pRA = 2 p (1 - p)` and `pAA = p * p` into `num_bins`
equal-width bins over the unit interval, accumulating the observed counts as
weights.

Modelling conventions:
* numpy float64 arithmetic is idealised as exact rational arithmetic (`ℚ`);
  every concrete value exercised by the claims is exactly representable and
  decisively away from any value where float rounding could flip a
  comparison;
* a numpy/pandas `ValueError` (broadcasting two arrays of different lengths
  in `a + b`, or building a `DataFrame` from columns of different lengths)
  is modelled as the result `none`;
* integer-valued numpy arrays become `List ℕ` / `List ℚ`, and
  `.astype(int)` (C truncation toward zero) becomes `astype_int`.
-/

/-- One entry of the input dataset: the slice of `ds` that `get_prob_dist`
reads, namely `variant_allele_frequency[:, 1]`, `variant_n_het` and
`variant_n_hom_alt` at one variant site. -/
structure VariantStatsRecord where
  allele_frequency : ℚ
  het_count : ℕ
  hom_alt_count : ℕ
deriving DecidableEq

/-- The `i`-th of the `num_bins + 1` boundary points: `np.linspace(0, 1.0,
num_bins + 1)` gives `i / num_bins` (and `[0]` for `num_bins = 0`, for which
`(i : ℚ) / 0 = 0` agrees), after which `bins[-1] += 0.01` widens the last
boundary. -/
def edgeVal (num_bins i : ℕ) : ℚ :=
  if i = num_bins then (i : ℚ) / (num_bins : ℚ) + 1 / 100
  else (i : ℚ) / (num_bins : ℚ)

/-- The bin-edge array `bins` of `get_prob_dist` after the widening of the
last edge. -/
def binEdges (num_bins : ℕ) : List ℚ :=
  (List.range (num_bins + 1)).map (edgeVal num_bins)

/-- `np.digitize(x, edges)` for monotonically increasing `edges` (default
`right=False`): the index `i` with `edges[i-1] <= x < edges[i]`, i.e. the
number of edges that are `<= x`; `0` means below range, `edges.length` means
at or above the top edge. -/
def digitize (x : ℚ) (edges : List ℚ) : ℕ :=
  edges.countP (fun e => decide (e ≤ x))

/-- One more than the largest index occurring, `0` for no indices: the
data-driven part of `np.bincount`'s output length. -/
def maxIndexP1 (idxs : List ℕ) : ℕ :=
  idxs.foldr (fun i m => max (i + 1) m) 0

/-- Total weight paired with index `k`: the value of entry `k` of
`np.bincount(idxs, weights)`. -/
def weightSum (pairs : List (ℕ × ℚ)) (k : ℕ) : ℚ :=
  ((pairs.filter (fun p => p.1 = k)).map Prod.snd).sum

/-- `np.bincount(idxs, weights=ws, minlength=ml)`: entry `k` holds the sum of
the weights whose index equals `k`; the output length is
`max ml (max idxs + 1)`. -/
def bincount (idxs : List ℕ) (ws : List ℚ) (ml : ℕ) : List ℚ :=
  (List.range (max ml (maxIndexP1 idxs))).map (weightSum (idxs.zip ws))

/-- `.astype(int)` on a float value: truncation toward zero. -/
def astype_int (q : ℚ) : ℤ :=
  if 0 ≤ q.num then q.num / (q.den : ℤ) else -((-q.num) / (q.den : ℤ))

/-- One row of the returned `DataFrame`: columns `start`, `stop`,
`prob_dist`. -/
structure HistRow where
  start : ℚ
  stop : ℚ
  prob_dist : ℤ
deriving DecidableEq

/-- Expected heterozygote probability `pRA = 2 * af * (1 - af)`. -/
def pRA (p : ℚ) : ℚ := 2 * p * (1 - p)

/-- Expected homozygous-alternate probability `pAA = af * af`. -/
def pAA (p : ℚ) : ℚ := p * p

/-- Embedding of `get_prob_dist(ds, num_bins)` (src/collect_data.py:73-85).

    bins = np.linspace(0, 1.0, num_bins + 1); bins[-1] += 0.01
    af = ds.variant_allele_frequency.values[:, 1]
    pRA = 2 * af * (1 - af); pAA = af * af
    a = np.bincount(np.digitize(pRA, bins), weights=hets, minlength=num_bins + 1)
    b = np.bincount(np.digitize(pAA, bins), weights=homs, minlength=num_bins + 1)
    count = (a + b).astype(int)
    return pd.DataFrame({"start": bins[:-1], "stop": bins[1:], "prob_dist": count[1:]})

`none` models the `ValueError` numpy raises when `a` and `b` have different
lengths (`a + b` cannot broadcast), or pandas raises when the three columns
do not all have one common length.  The Python default `num_bins=10` is
passed explicitly by every caller below. -/
def get_prob_dist (records : List VariantStatsRecord) (num_bins : ℕ) :
    Option (List HistRow) :=
  let bins := binEdges num_bins
  let af := records.map (fun r => r.allele_frequency)
  let pRAs := af.map pRA
  let pAAs := af.map pAA
  let hets : List ℚ := records.map (fun r => (r.het_count : ℚ))
  let homs : List ℚ := records.map (fun r => (r.hom_alt_count : ℚ))
  let a := bincount (pRAs.map (fun x => digitize x bins)) hets (num_bins + 1)
  let b := bincount (pAAs.map (fun x => digitize x bins)) homs (num_bins + 1)
  if a.length = b.length then
    let count := (List.zipWith (fun x y => x + y) a b).map astype_int
    if bins.dropLast.length = (count.drop 1).length then
      some ((bins.dropLast.zip ((bins.drop 1).zip (count.drop 1))).map
        (fun t => ⟨t.1, t.2.1, t.2.2⟩))
    else none
  else none

/-- The `prob_dist` column of the result, the quantity the spec's claims
constrain. -/
def countsOf (records : List VariantStatsRecord) (num_bins : ℕ) :
    Option (List ℤ) :=
  (get_prob_dist records num_bins).map (fun rows => rows.map HistRow.prob_dist)

/-- Validity condition the spec places on inputs: every allele frequency lies
in `[0, 1]`. -/
def validInput (records : List VariantStatsRecord) : Prop :=
  ∀ r ∈ records, 0 ≤ r.allele_frequency ∧ r.allele_frequency ≤ 1

instance (records : List VariantStatsRecord) : Decidable (validInput records) :=
  inferInstanceAs
    (Decidable (∀ r ∈ records, 0 ≤ r.allele_frequency ∧ r.allele_frequency ≤ 1))

/-- Digitize index of a record's heterozygote probability. -/
def hetBin (n : ℕ) (r : VariantStatsRecord) : ℕ :=
  digitize (pRA r.allele_frequency) (binEdges n)

/-- Digitize index of a record's homozygous-alternate probability. -/
def homBin (n : ℕ) (r : VariantStatsRecord) : ℕ :=
  digitize (pAA r.allele_frequency) (binEdges n)

/-- The total contribution the input records make to output bin `k`
(digitize index `k + 1`): het counts of the records whose `pRA` digitizes to
`k + 1` plus hom-alt counts of the records whose `pAA` does. -/
def contrib (records : List VariantStatsRecord) (n k : ℕ) : ℕ :=
  (records.map (fun r =>
    (if hetBin n r = k + 1 then r.het_count else 0) +
    (if homBin n r = k + 1 then r.hom_alt_count else 0))).sum

/-- Add `v` to entry `i` of a list (out-of-range `i` leaves the list
unchanged, and is never exercised below). -/
def addAt (l : List ℤ) (i : ℕ) (v : ℤ) : List ℤ :=
  l.set i (l.getD i 0 + v)

/-- `x` does not lie exactly on any bin edge.  (The spec's conservation
claim, C4, restricts itself to such inputs.) -/
def notOnBoundary (n : ℕ) (x : ℚ) : Prop :=
  ∀ e ∈ binEdges n, x ≠ e

instance (n : ℕ) (x : ℚ) : Decidable (notOnBoundary n x) :=
  inferInstanceAs (Decidable (∀ e ∈ binEdges n, x ≠ e))

/-! ## Generic helper lemmas -/

lemma maxIndexP1_le {idxs : List ℕ} {m : ℕ} (h : ∀ i ∈ idxs, i + 1 ≤ m) :
    maxIndexP1 idxs ≤ m := by
  induction idxs with
  | nil => simp [maxIndexP1]
  | cons a l ih =>
    simp only [maxIndexP1, List.foldr_cons] at ih ⊢
    exact max_le (h a (by simp)) (ih fun i hi => h i (List.mem_cons_of_mem _ hi))

lemma bincount_eq_map (idxs : List ℕ) (ws : List ℚ) (ml : ℕ)
    (h : maxIndexP1 idxs ≤ ml) :
    bincount idxs ws ml = (List.range ml).map (weightSum (idxs.zip ws)) := by
  simp [bincount, Nat.max_eq_left h]

lemma weightSum_map {α : Type} (f : α → ℕ) (g : α → ℚ) (k : ℕ) (l : List α) :
    weightSum ((l.map f).zip (l.map g)) k
      = (l.map (fun r => if f r = k then g r else 0)).sum := by
  induction l with
  | nil => simp [weightSum]
  | cons a l ih =>
    by_cases h : f a = k <;>
      simp only [List.map_cons, List.zip_cons_cons, weightSum, List.filter_cons] at ih ⊢ <;>
      simp [h, ih]

lemma sum_map_add {α M : Type} [AddCommMonoid M] (l : List α) (f g : α → M) :
    (l.map (fun x => f x + g x)).sum = (l.map f).sum + (l.map g).sum := by
  induction l with
  | nil => simp
  | cons a l ih =>
    simp only [List.map_cons, List.sum_cons, ih]
    exact add_add_add_comm _ _ _ _

lemma sum_map_ite_natCast {α : Type} (l : List α) (c : α → Prop) [DecidablePred c]
    (g : α → ℕ) :
    (l.map (fun r => if c r then (g r : ℚ) else 0)).sum
      = (((l.map (fun r => if c r then g r else 0)).sum : ℕ) : ℚ) := by
  rw [Nat.cast_list_sum, List.map_map]
  refine congrArg List.sum (List.map_congr_left ?_)
  intro r _
  by_cases h : c r <;> simp [h]

lemma astype_int_natCast (m : ℕ) : astype_int ((m : ℕ) : ℚ) = (m : ℤ) := by
  simp [astype_int]

/-! ## Facts about the bin edges and `digitize` -/

lemma binEdges_length (n : ℕ) : (binEdges n).length = n + 1 := by
  simp [binEdges]

lemma edgeVal_nonneg (n i : ℕ) : 0 ≤ edgeVal n i := by
  unfold edgeVal
  have h : (0 : ℚ) ≤ (i : ℚ) / (n : ℚ) :=
    div_nonneg (by positivity) (by positivity)
  split <;> linarith

lemma edgeVal_zero {n : ℕ} (hn : 1 ≤ n) : edgeVal n 0 = 0 := by
  unfold edgeVal
  rw [if_neg (by omega)]
  simp

lemma edgeVal_last {n : ℕ} (hn : 1 ≤ n) : edgeVal n n = 1 + 1 / 100 := by
  unfold edgeVal
  rw [if_pos rfl, div_self (by positivity : ((n : ℚ)) ≠ 0)]

lemma edgeVal_of_lt {n i : ℕ} (h : i < n) : edgeVal n i = (i : ℚ) / (n : ℚ) := by
  unfold edgeVal
  rw [if_neg (by omega)]

lemma digitize_of_neg {x : ℚ} (hx : x < 0) (n : ℕ) : digitize x (binEdges n) = 0 := by
  unfold digitize
  rw [List.countP_eq_zero]
  intro e he
  simp only [decide_eq_true_eq, not_le]
  obtain ⟨i, _, rfl⟩ := List.mem_map.1 he
  exact lt_of_lt_of_le hx (edgeVal_nonneg n i)

lemma one_le_digitize {n : ℕ} (hn : 1 ≤ n) {x : ℚ} (hx : 0 ≤ x) :
    1 ≤ digitize x (binEdges n) := by
  unfold digitize
  refine List.countP_pos_iff.2 ⟨edgeVal n 0, ?_, ?_⟩
  · exact List.mem_map_of_mem _ (List.mem_range.2 (by omega))
  · simp only [decide_eq_true_eq]
    rw [edgeVal_zero hn]
    exact hx

lemma digitize_le {n : ℕ} (hn : 1 ≤ n) {x : ℚ} (hx : x < 1 + 1 / 100) :
    digitize x (binEdges n) ≤ n := by
  have hle : digitize x (binEdges n) ≤ n + 1 := by
    simpa [binEdges_length] using List.countP_le_length (l := binEdges n)
      (p := fun e => decide (e ≤ x))
  rcases Nat.lt_or_ge (digitize x (binEdges n)) (n + 1) with h | h
  · omega
  have hall : ∀ e ∈ binEdges n, e ≤ x := by
    have heq : digitize x (binEdges n) = (binEdges n).length := by
      rw [binEdges_length]; omega
    intro e he
    simpa using List.countP_eq_length.1 heq e he
  have hmem : edgeVal n n ∈ binEdges n :=
    List.mem_map_of_mem _ (List.mem_range.2 (by omega))
  have := hall _ hmem
  rw [edgeVal_last hn] at this
  linarith

lemma digitize_exact {n j : ℕ} (hn : 1 ≤ n) (hj : j < n) :
    digitize ((j : ℚ) / (n : ℚ)) (binEdges n) = j + 1 := by
  have hnpos : (0 : ℚ) < (n : ℚ) := by positivity
  unfold digitize binEdges
  rw [List.countP_map]
  have hsplit : n + 1 = (j + 1) + (n - j) := by omega
  rw [hsplit, List.range_add, List.countP_append]
  have h1 : (List.range (j + 1)).countP
      ((fun e => decide (e ≤ (j : ℚ) / (n : ℚ))) ∘ edgeVal n) = j + 1 := by
    rw [List.countP_eq_length.2, List.length_range]
    intro i hi
    have hi' : i < j + 1 := List.mem_range.1 hi
    simp only [Function.comp_apply, decide_eq_true_eq]
    rw [edgeVal_of_lt (by omega)]
    rw [div_le_div_iff_of_pos_right hnpos]
    exact_mod_cast Nat.lt_succ_iff.1 hi'
  have h2 : ((List.range (n - j)).map (fun t => (j + 1) + t)).countP
      ((fun e => decide (e ≤ (j : ℚ) / (n : ℚ))) ∘ edgeVal n) = 0 := by
    rw [List.countP_eq_zero]
    intro i hi
    obtain ⟨t, ht, rfl⟩ := List.mem_map.1 hi
    have ht' : t < n - j := List.mem_range.1 ht
    simp only [Function.comp_apply, decide_eq_true_eq, not_le]
    have hjlt : (j : ℚ) / (n : ℚ) < 1 :=
      (div_lt_one hnpos).2 (by exact_mod_cast hj)
    by_cases hcase : (j + 1) + t = n
    · rw [hcase, edgeVal_last hn]
      linarith
    · have htlt : (j + 1) + t < n := by omega
      rw [edgeVal_of_lt htlt]
      rw [div_lt_div_iff_of_pos_right hnpos]
      exact_mod_cast by omega
  rw [h1, h2]

lemma digitize_one_val {n : ℕ} (hn : 1 ≤ n) : digitize 1 (binEdges n) = n := by
  have hnpos : (0 : ℚ) < (n : ℚ) := by positivity
  unfold digitize binEdges
  rw [List.countP_map]
  rw [show n + 1 = n + 1 from rfl, List.range_succ, List.countP_append]
  have h1 : (List.range n).countP ((fun e => decide (e ≤ (1 : ℚ))) ∘ edgeVal n) = n := by
    rw [List.countP_eq_length.2, List.length_range]
    intro i hi
    have hi' : i < n := List.mem_range.1 hi
    simp only [Function.comp_apply, decide_eq_true_eq]
    rw [edgeVal_of_lt hi']
    rw [div_le_one hnpos]
    exact_mod_cast Nat.le_of_lt hi'
  have h2 : List.countP ((fun e => decide (e ≤ (1 : ℚ))) ∘ edgeVal n) [n] = 0 := by
    rw [List.countP_eq_zero]
    intro i hi
    rw [List.mem_singleton.1 hi]
    simp only [Function.comp_apply, decide_eq_true_eq, not_le]
    rw [edgeVal_last hn]
    linarith
  rw [h1, h2]
  omega

lemma digitize_zero_val {n : ℕ} (hn : 1 ≤ n) : digitize 0 (binEdges n) = 1 := by
  have := digitize_exact hn (show 0 < n by omega)
  simpa using this

/-! ## Range facts about `pRA` and `pAA` -/

lemma pRA_nonneg {p : ℚ} (h0 : 0 ≤ p) (h1 : p ≤ 1) : 0 ≤ pRA p := by
  unfold pRA; nlinarith

lemma pRA_le_one {p : ℚ} (h0 : 0 ≤ p) (h1 : p ≤ 1) : pRA p ≤ 1 := by
  unfold pRA; nlinarith [sq_nonneg (1 - 2 * p)]

lemma pAA_nonneg (p : ℚ) : 0 ≤ pAA p := mul_self_nonneg p

lemma pAA_le_one {p : ℚ} (h0 : 0 ≤ p) (h1 : p ≤ 1) : pAA p ≤ 1 := by
  unfold pAA; nlinarith

lemma pRA_neg_of_neg {p : ℚ} (hp : p < 0) : pRA p < 0 := by
  unfold pRA; nlinarith

lemma hetBin_le {n : ℕ} (hn : 1 ≤ n) {r : VariantStatsRecord}
    (h0 : 0 ≤ r.allele_frequency) (h1 : r.allele_frequency ≤ 1) :
    1 ≤ hetBin n r ∧ hetBin n r ≤ n := by
  constructor
  · exact one_le_digitize hn (pRA_nonneg h0 h1)
  · exact digitize_le hn (by linarith [pRA_le_one h0 h1])

lemma homBin_le {n : ℕ} (hn : 1 ≤ n) {r : VariantStatsRecord}
    (h0 : 0 ≤ r.allele_frequency) (h1 : r.allele_frequency ≤ 1) :
    1 ≤ homBin n r ∧ homBin n r ≤ n := by
  constructor
  · exact one_le_digitize hn (pAA_nonneg _)
  · exact digitize_le hn (by linarith [pAA_le_one h0 h1])

/-! ## The master characterisation of `get_prob_dist` -/

/-- Whenever every record's two digitize indices stay within `0..n` (true in
particular for valid input), `get_prob_dist` succeeds and row `k` is
`(edge k, edge (k+1), contrib k)`. -/
theorem get_prob_dist_eq (records : List VariantStatsRecord) (n : ℕ)
    (H : ∀ r ∈ records, hetBin n r ≤ n ∧ homBin n r ≤ n) :
    get_prob_dist records n =
      some ((List.range n).map (fun k =>
        ⟨edgeVal n k, edgeVal n (k + 1), (contrib records n k : ℤ)⟩)) := by
  have hA : ((records.map (fun r => r.allele_frequency)).map pRA).map
      (fun x => digitize x (binEdges n)) = records.map (hetBin n) := by
    simp only [List.map_map]; rfl
  have hB : ((records.map (fun r => r.allele_frequency)).map pAA).map
      (fun x => digitize x (binEdges n)) = records.map (homBin n) := by
    simp only [List.map_map]; rfl
  have hmaxA : maxIndexP1 (records.map (hetBin n)) ≤ n + 1 := by
    refine maxIndexP1_le ?_
    intro i hi
    obtain ⟨r, hr, rfl⟩ := List.mem_map.1 hi
    exact Nat.succ_le_succ (H r hr).1
  have hmaxB : maxIndexP1 (records.map (homBin n)) ≤ n + 1 := by
    refine maxIndexP1_le ?_
    intro i hi
    obtain ⟨r, hr, rfl⟩ := List.mem_map.1 hi
    exact Nat.succ_le_succ (H r hr).2
  simp only [get_prob_dist, hA, hB]
  rw [bincount_eq_map _ _ _ hmaxA, bincount_eq_map _ _ _ hmaxB]
  rw [if_pos (by simp)]
  rw [List.zipWith_map (fun x y => x + y)
    (weightSum ((records.map (hetBin n)).zip (records.map (fun r => (r.het_count : ℚ)))))
    (weightSum ((records.map (homBin n)).zip (records.map (fun r => (r.hom_alt_count : ℚ)))))
    (List.range (n + 1)) (List.range (n + 1))]
  rw [List.zipWith_same, List.map_map]
  simp only [Function.comp_def]
  rw [if_pos (by simp [binEdges])]
  congr 1
  have hdl : (binEdges n).dropLast = (List.range n).map (edgeVal n) := by
    unfold binEdges
    rw [← List.map_dropLast, List.range_succ, List.dropLast_concat]
  have hd1 : (binEdges n).drop 1 = (List.range n).map (fun k => edgeVal n (k + 1)) := by
    unfold binEdges
    rw [← List.map_drop, List.range_succ_eq_map, List.drop_succ_cons, List.drop_zero,
      List.map_map]
    rfl
  have hcnt : (((List.range (n + 1)).map fun k =>
      astype_int
        ((weightSum ((records.map (hetBin n)).zip
            (records.map fun r => (r.het_count : ℚ)))) k +
          (weightSum ((records.map (homBin n)).zip
            (records.map fun r => (r.hom_alt_count : ℚ)))) k)).drop 1)
      = (List.range n).map (fun k => (contrib records n k : ℤ)) := by
    rw [← List.map_drop, List.range_succ_eq_map, List.drop_succ_cons, List.drop_zero,
      List.map_map]
    congr 1
    funext k
    simp only [Function.comp_apply]
    rw [weightSum_map (hetBin n) (fun r => (r.het_count : ℚ)) _ records,
      weightSum_map (homBin n) (fun r => (r.hom_alt_count : ℚ)) _ records]
    rw [sum_map_ite_natCast records (fun r => hetBin n r = Nat.succ k) (fun r => r.het_count),
      sum_map_ite_natCast records (fun r => homBin n r = Nat.succ k) (fun r => r.hom_alt_count)]
    rw [← Nat.cast_add, astype_int_natCast]
    unfold contrib
    rw [sum_map_add]
  rw [hdl, hd1, hcnt]
  rw [List.zip_map', List.zip_map', List.map_map]
  rfl

/-! ## Summation of contributions -/

lemma sum_range_ite {d c : ℕ} (n : ℕ) :
    ((List.range n).map (fun k => if d = k + 1 then c else 0)).sum
      = if 1 ≤ d ∧ d ≤ n then c else 0 := by
  induction n with
  | zero =>
    simp only [List.range_zero, List.map_nil, List.sum_nil]
    rw [if_neg (by omega)]
  | succ m ih =>
    rw [List.range_succ, List.map_append, List.sum_append, ih]
    simp only [List.map_cons, List.map_nil, List.sum_cons, List.sum_nil]
    split_ifs <;> omega

lemma sum_contrib (records : List VariantStatsRecord) (n : ℕ) :
    ((List.range n).map (fun k => contrib records n k)).sum
      = (records.map (fun r =>
          (if 1 ≤ hetBin n r ∧ hetBin n r ≤ n then r.het_count else 0) +
          (if 1 ≤ homBin n r ∧ homBin n r ≤ n then r.hom_alt_count else 0))).sum := by
  induction records with
  | nil => simp [contrib]
  | cons r l ih =>
    have hc : ∀ k, contrib (r :: l) n k
        = ((if hetBin n r = k + 1 then r.het_count else 0) +
           (if homBin n r = k + 1 then r.hom_alt_count else 0)) + contrib l n k := by
      intro k
      simp [contrib]
    simp only [hc]
    rw [sum_map_add (List.range n)
      (fun k => (if hetBin n r = k + 1 then r.het_count else 0) +
                (if homBin n r = k + 1 then r.hom_alt_count else 0))
      (fun k => contrib l n k)]
    rw [sum_map_add (List.range n)
      (fun k => if hetBin n r = k + 1 then r.het_count else 0)
      (fun k => if homBin n r = k + 1 then r.hom_alt_count else 0)]
    rw [sum_range_ite, sum_range_ite, ih]
    simp [List.sum_cons]

lemma sum_map_natCast_int {α : Type} (l : List α) (u : α → ℕ) :
    (l.map (fun x => ((u x : ℕ) : ℤ))).sum = (((l.map u).sum : ℕ) : ℤ) := by
  rw [Nat.cast_list_sum, List.map_map]
  rfl

lemma bins_le_of_valid {records : List VariantStatsRecord} {n : ℕ}
    (hn : 1 ≤ n) (hv : validInput records) :
    ∀ r ∈ records, hetBin n r ≤ n ∧ homBin n r ≤ n := by
  intro r hr
  obtain ⟨h0, h1⟩ := hv r hr
  exact ⟨(hetBin_le hn h0 h1).2, (homBin_le hn h0 h1).2⟩

/-! ## Entry access for `addAt` -/

lemma length_addAt (l : List ℤ) (i : ℕ) (v : ℤ) :
    (addAt l i v).length = l.length := by
  simp [addAt]

lemma get_addAt (l : List ℤ) (i : ℕ) (v : ℤ) (hi : i < l.length)
    (k : ℕ) (hk : k < l.length) :
    (addAt l i v).get ⟨k, by simpa [length_addAt] using hk⟩
      = if i = k then l.get ⟨k, hk⟩ + v else l.get ⟨k, hk⟩ := by
  unfold addAt
  simp only [List.get_eq_getElem]
  by_cases h : i = k
  · subst h
    rw [List.getElem_set]
    simp [List.getElem?_eq_getElem hi]
  · rw [List.getElem_set]
    simp [h]

/-! ## Concrete evaluation helpers -/

lemma range_one_eq : List.range 1 = [0] := rfl

lemma range_ten : List.range 10 = [0, 1, 2, 3, 4, 5, 6, 7, 8, 9] := rfl

lemma range_eleven : List.range 11 = [0, 1, 2, 3, 4, 5, 6, 7, 8, 9, 10] := rfl

lemma binEdges_ten : binEdges 10 =
    [0, 1/10, 2/10, 3/10, 4/10, 5/10, 6/10, 7/10, 8/10, 9/10, 101/100] := by
  norm_num [binEdges, edgeVal, range_eleven]

lemma binEdges_zero : binEdges 0 = [1/100] := by
  norm_num [binEdges, edgeVal, range_one_eq]

/-! ## The claims -/

/-- C2 (amended from the code): every probability value in `[0, 1]` is
assigned exactly one digitize index in `1..n`, i.e. exactly one output bin
(bin `k` holds the values with digitize index `k + 1`); a value lying exactly
on the interior boundary `j / n` is assigned digitize index `j + 1`, i.e. the
HIGHER-indexed of the two adjacent output bins (bin `j`, the one whose left
edge is the boundary) — not the lower-indexed one as the claim states; a
value of exactly 1.0 gets digitize index `n`, the last bin, thanks to the
widened upper edge. -/
theorem C2_boundary_assignment (n j : ℕ) (x : ℚ) (hn : 1 ≤ n) (hj1 : 1 ≤ j)
    (hjn : j < n) (hx0 : 0 ≤ x) (hx1 : x ≤ 1) :
    (1 ≤ digitize x (binEdges n) ∧ digitize x (binEdges n) ≤ n) ∧
    digitize ((j : ℚ) / (n : ℚ)) (binEdges n) = j + 1 ∧
    digitize 1 (binEdges n) = n :=
  ⟨⟨one_le_digitize hn hx0, digitize_le hn (by linarith)⟩,
   digitize_exact hn hjn, digitize_one_val hn⟩

/-- C2 witness: the amended claim at `n = 10`, `j = 5`, `x = 1/4`. -/
theorem C2_boundary_assignment_witness :
    (1 ≤ digitize (1/4) (binEdges 10) ∧ digitize (1/4) (binEdges 10) ≤ 10) ∧
    digitize (((5 : ℕ) : ℚ) / ((10 : ℕ) : ℚ)) (binEdges 10) = 5 + 1 ∧
    digitize 1 (binEdges 10) = 10 :=
  C2_boundary_assignment 10 5 (1/4) (by norm_num) (by norm_num) (by norm_num)
    (by norm_num) (by norm_num)

/-- C2 counterexample: `pRA = 0.5` for a record with allele frequency `1/2`
lies exactly on the interior boundary between bin 4 (`[0.4, 0.5)`) and
bin 5 (`[0.5, 0.6)`).  The claim as stated sends its 10 het observations to
the lower-indexed bin 4; the code puts them in bin 5, and bin 4 stays 0. -/
theorem C2_boundary_counterexample :
    countsOf [(⟨1/2, 10, 0⟩ : VariantStatsRecord)] 10
      = some [0, 0, 0, 0, 0, 10, 0, 0, 0, 0] := by
  have hhet : hetBin 10 ⟨1/2, 10, 0⟩ = 6 := by
    norm_num [hetBin, pRA, digitize, binEdges_ten, List.countP_cons]
  have hhom : homBin 10 ⟨1/2, 10, 0⟩ = 3 := by
    norm_num [homBin, pAA, digitize, binEdges_ten, List.countP_cons]
  rw [countsOf, get_prob_dist_eq _ 10 ?_]
  · simp only [Option.map_some', List.map_map, range_ten, List.map_cons, List.map_nil,
      Function.comp_apply, contrib, List.sum_cons, List.sum_nil, hhet, hhom]
    norm_num
  · intro r hr
    rw [List.mem_singleton] at hr
    subst hr
    rw [hhet, hhom]
    omega

/-- C3: for valid input and `num_bins = n >= 1` the computation succeeds and
yields exactly `n` rows whose intervals partition `[0, 1]`: the first start
is 0, each row's stop is the next row's start (`drop 1` of the starts equals
`dropLast` of the stops), the last stop is `101/100 >= 1` (the widened
edge), and the starts increase strictly (rows ordered by start). -/
theorem C3_coverage_partition (records : List VariantStatsRecord) (n : ℕ)
    (hn : 1 ≤ n) (hv : validInput records) :
    get_prob_dist records n ≠ none ∧
    ((get_prob_dist records n).getD []).length = n ∧
    (((get_prob_dist records n).getD []).map HistRow.start).head? = some 0 ∧
    ((((get_prob_dist records n).getD []).map HistRow.start).drop 1
      = (((get_prob_dist records n).getD []).map HistRow.stop).dropLast) ∧
    (((get_prob_dist records n).getD []).map HistRow.stop).getLast? = some (101 / 100) ∧
    (1 : ℚ) ≤ 101 / 100 ∧
    (((get_prob_dist records n).getD []).map HistRow.start).Pairwise (· < ·) := by
  obtain ⟨m, rfl⟩ : ∃ m, n = m + 1 := ⟨n - 1, by omega⟩
  rw [get_prob_dist_eq records (m + 1) (bins_le_of_valid hn hv)]
  have hstart : ((some ((List.range (m + 1)).map (fun k =>
      (⟨edgeVal (m + 1) k, edgeVal (m + 1) (k + 1),
        (contrib records (m + 1) k : ℤ)⟩ : HistRow)))).getD []).map HistRow.start
      = (List.range (m + 1)).map (edgeVal (m + 1)) := by
    simp only [Option.getD_some, List.map_map]
    rfl
  have hstop : ((some ((List.range (m + 1)).map (fun k =>
      (⟨edgeVal (m + 1) k, edgeVal (m + 1) (k + 1),
        (contrib records (m + 1) k : ℤ)⟩ : HistRow)))).getD []).map HistRow.stop
      = (List.range (m + 1)).map (fun k => edgeVal (m + 1) (k + 1)) := by
    simp only [Option.getD_some, List.map_map]
    rfl
  refine ⟨by simp, by simp, ?_, ?_, ?_, by norm_num, ?_⟩
  · rw [hstart, List.range_succ_eq_map]
    simp [edgeVal_zero hn]
  · have h1 : (List.map (edgeVal (m + 1)) (List.range (m + 1))).drop 1
        = List.map (edgeVal (m + 1) ∘ Nat.succ) (List.range m) := by
      rw [List.range_succ_eq_map, List.map_cons, List.drop_succ_cons, List.drop_zero,
        List.map_map]
    have h2 : (List.map (fun k => edgeVal (m + 1) (k + 1)) (List.range (m + 1))).dropLast
        = List.map (fun k => edgeVal (m + 1) (k + 1)) (List.range m) := by
      rw [List.range_succ, List.map_append]
      simp only [List.map_cons, List.map_nil]
      rw [List.dropLast_concat]
    rw [hstart, hstop, h1, h2]
    rfl
  · rw [hstop, List.range_succ, List.map_append]
    simp only [List.map_cons, List.map_nil]
    rw [List.getLast?_concat]
    rw [edgeVal_last hn]
    norm_num
  · rw [hstart, List.pairwise_map]
    refine List.Pairwise.imp_of_mem ?_ (List.pairwise_lt_range (m + 1))
    intro a b ha hb hab
    have ha' : a < m + 1 := List.mem_range.1 ha
    have hb' : b < m + 1 := List.mem_range.1 hb
    rw [edgeVal_of_lt ha', edgeVal_of_lt hb']
    rw [div_lt_div_iff_of_pos_right (by positivity)]
    exact_mod_cast hab

/-- C3 witness: the partition facts at the concrete input of the spec's
scenario, `num_bins = 10`. -/
theorem C3_coverage_partition_witness :
    get_prob_dist [(⟨1/2, 10, 5⟩ : VariantStatsRecord)] 10 ≠ none ∧
    ((get_prob_dist [(⟨1/2, 10, 5⟩ : VariantStatsRecord)] 10).getD []).length = 10 ∧
    (((get_prob_dist [(⟨1/2, 10, 5⟩ : VariantStatsRecord)] 10).getD []).map
        HistRow.start).head? = some 0 ∧
    ((((get_prob_dist [(⟨1/2, 10, 5⟩ : VariantStatsRecord)] 10).getD []).map
        HistRow.start).drop 1
      = (((get_prob_dist [(⟨1/2, 10, 5⟩ : VariantStatsRecord)] 10).getD []).map
        HistRow.stop).dropLast) ∧
    (((get_prob_dist [(⟨1/2, 10, 5⟩ : VariantStatsRecord)] 10).getD []).map
        HistRow.stop).getLast? = some (101 / 100) ∧
    (1 : ℚ) ≤ 101 / 100 ∧
    (((get_prob_dist [(⟨1/2, 10, 5⟩ : VariantStatsRecord)] 10).getD []).map
        HistRow.start).Pairwise (· < ·) :=
  C3_coverage_partition [⟨1/2, 10, 5⟩] 10 (by norm_num)
    (by
      intro r hr
      rw [List.mem_singleton] at hr
      subst hr
      norm_num)

/-- C4: conservation.  For input whose allele frequencies are strictly
inside `(0, 1)` (and, as the claim adds, whose `pRA`/`pAA` values avoid the
bin boundaries — a restriction the code does not need, since a boundary
value still lands in exactly one bin), the computation succeeds and the sum
of all output counts equals the sum over the records of
`het_count + hom_alt_count`. -/
theorem C4_conservation (records : List VariantStatsRecord) (n : ℕ)
    (hn : 1 ≤ n)
    (hv : ∀ r ∈ records, 0 < r.allele_frequency ∧ r.allele_frequency < 1)
    (hb : ∀ r ∈ records, notOnBoundary n (pRA r.allele_frequency) ∧
          notOnBoundary n (pAA r.allele_frequency)) :
    get_prob_dist records n ≠ none ∧
    (((get_prob_dist records n).getD []).map HistRow.prob_dist).sum
      = (((records.map (fun r => r.het_count + r.hom_alt_count)).sum : ℕ) : ℤ) := by
  have hvalid : validInput records := by
    intro r hr
    obtain ⟨h0, h1⟩ := hv r hr
    exact ⟨le_of_lt h0, le_of_lt h1⟩
  rw [get_prob_dist_eq records n (bins_le_of_valid hn hvalid)]
  refine ⟨by simp, ?_⟩
  simp only [Option.getD_some, List.map_map]
  have hmap : (List.range n).map
      (HistRow.prob_dist ∘ fun k => (⟨edgeVal n k, edgeVal n (k + 1),
        (contrib records n k : ℤ)⟩ : HistRow))
      = (List.range n).map (fun k => ((contrib records n k : ℕ) : ℤ)) := rfl
  rw [hmap, sum_map_natCast_int, sum_contrib]
  congr 2
  refine List.map_congr_left ?_
  intro r hr
  obtain ⟨h0, h1⟩ := hv r hr
  have hhet := hetBin_le hn (le_of_lt h0) (le_of_lt h1)
  have hhom := homBin_le hn (le_of_lt h0) (le_of_lt h1)
  rw [if_pos hhet, if_pos hhom]

/-- C4 witness: one record with allele frequency `1/3` (so `pRA = 4/9` and
`pAA = 1/9`, neither on a bin edge), 10 bins; the counts sum to `10 + 5`. -/
theorem C4_conservation_witness :
    get_prob_dist [(⟨1/3, 10, 5⟩ : VariantStatsRecord)] 10 ≠ none ∧
    (((get_prob_dist [(⟨1/3, 10, 5⟩ : VariantStatsRecord)] 10).getD []).map
        HistRow.prob_dist).sum
      = ((([(⟨1/3, 10, 5⟩ : VariantStatsRecord)].map
          (fun r => r.het_count + r.hom_alt_count)).sum : ℕ) : ℤ) :=
  C4_conservation [⟨1/3, 10, 5⟩] 10 (by norm_num)
    (by
      intro r hr
      rw [List.mem_singleton] at hr
      subst hr
      norm_num)
    (by
      intro r hr
      rw [List.mem_singleton] at hr
      subst hr
      constructor <;>
        · intro e he
          rw [binEdges_ten] at he
          fin_cases he <;> norm_num [pRA, pAA])

/-- C5: the spec's scenario.  One record `{af = 1/2, het = 10, hom = 5}` with
10 bins: `pRA = 1/2` lands in bin 5 (`[0.5, 0.6)`) contributing 10, `pAA =
1/4` lands in bin 2 (`[0.2, 0.3)`) contributing 5, every other bin is 0. -/
theorem C5_scenario :
    get_prob_dist [(⟨1/2, 10, 5⟩ : VariantStatsRecord)] 10 =
      some [⟨0, 1/10, 0⟩, ⟨1/10, 2/10, 0⟩, ⟨2/10, 3/10, 5⟩, ⟨3/10, 4/10, 0⟩,
            ⟨4/10, 5/10, 0⟩, ⟨5/10, 6/10, 10⟩, ⟨6/10, 7/10, 0⟩, ⟨7/10, 8/10, 0⟩,
            ⟨8/10, 9/10, 0⟩, ⟨9/10, 101/100, 0⟩] := by
  have hhet : hetBin 10 ⟨1/2, 10, 5⟩ = 6 := by
    norm_num [hetBin, pRA, digitize, binEdges_ten, List.countP_cons]
  have hhom : homBin 10 ⟨1/2, 10, 5⟩ = 3 := by
    norm_num [homBin, pAA, digitize, binEdges_ten, List.countP_cons]
  rw [get_prob_dist_eq _ 10 ?_]
  · simp only [range_ten, List.map_cons, List.map_nil, contrib, List.sum_cons,
      List.sum_nil, hhet, hhom]
    norm_num [edgeVal]
  · intro r hr
    rw [List.mem_singleton] at hr
    subst hr
    rw [hhet, hhom]
    omega

lemma addAt_map_range {n i : ℕ} (hi : i < n) (f : ℕ → ℤ) (v : ℤ) :
    addAt ((List.range n).map f) i v
      = (List.range n).map (fun k => if i = k then f k + v else f k) := by
  refine List.ext_get (by simp [length_addAt]) ?_
  intro k h1 h2
  rw [get_addAt ((List.range n).map f) i v (by simpa using hi) k
    (by simpa [length_addAt] using h1)]
  by_cases hik : i = k <;> simp [hik]

/-- C6: a record with allele frequency exactly 1 has `pRA = 0` and
`pAA = 1`; prepending it to any valid input adds its `het_count` to the first
bin's count and its `hom_alt_count` to the last bin's count, and changes
nothing else. -/
theorem C6_af_one (records : List VariantStatsRecord) (n h m : ℕ)
    (hn : 1 ≤ n) (hv : validInput records) :
    countsOf ((⟨1, h, m⟩ : VariantStatsRecord) :: records) n
      = (countsOf records n).map
          (fun c => addAt (addAt c 0 ((h : ℕ) : ℤ)) (n - 1) ((m : ℕ) : ℤ)) := by
  have hhet : hetBin n (⟨1, h, m⟩ : VariantStatsRecord) = 1 := by
    have hp : pRA ((⟨1, h, m⟩ : VariantStatsRecord).allele_frequency) = 0 := by
      norm_num [pRA]
    rw [hetBin, hp, digitize_zero_val hn]
  have hhom : homBin n (⟨1, h, m⟩ : VariantStatsRecord) = n := by
    have hp : pAA ((⟨1, h, m⟩ : VariantStatsRecord).allele_frequency) = 1 := by
      norm_num [pAA]
    rw [homBin, hp, digitize_one_val hn]
  have Hrec := bins_le_of_valid hn hv
  have Hcons : ∀ r ∈ (⟨1, h, m⟩ : VariantStatsRecord) :: records,
      hetBin n r ≤ n ∧ homBin n r ≤ n := by
    intro r hr
    rcases List.mem_cons.1 hr with h1 | h1
    · subst h1
      rw [hhet, hhom]
      omega
    · exact Hrec r h1
  have hcontrib : ∀ k, contrib ((⟨1, h, m⟩ : VariantStatsRecord) :: records) n k
      = ((if 1 = k + 1 then h else 0) + (if n = k + 1 then m else 0))
        + contrib records n k := by
    intro k
    simp [contrib, hhet, hhom]
  rw [countsOf, countsOf, get_prob_dist_eq _ n Hcons, get_prob_dist_eq _ n Hrec]
  simp only [Option.map_some', List.map_map]
  congr 1
  have e1 : ∀ (l : List VariantStatsRecord), (List.range n).map
      (HistRow.prob_dist ∘ fun k => (⟨edgeVal n k, edgeVal n (k + 1),
        (contrib l n k : ℤ)⟩ : HistRow))
      = (List.range n).map (fun k => ((contrib l n k : ℕ) : ℤ)) := fun _ => rfl
  rw [e1, e1]
  rw [addAt_map_range (show 0 < n by omega) (fun k => ((contrib records n k : ℕ) : ℤ))]
  rw [addAt_map_range (show n - 1 < n by omega)]
  refine List.map_congr_left ?_
  intro k hk
  have hkn : k < n := List.mem_range.1 hk
  rw [hcontrib k]
  by_cases hk0 : (0 : ℕ) = k
  · rw [if_pos (show (1 : ℕ) = k + 1 by omega)]
    by_cases hklast : n - 1 = k
    · rw [if_pos hklast, if_pos hk0, if_pos (show n = k + 1 by omega)]
      push_cast
      ring
    · rw [if_neg hklast, if_pos hk0, if_neg (show ¬n = k + 1 by omega)]
      push_cast
      ring
  · rw [if_neg (show ¬(1 : ℕ) = k + 1 by omega)]
    by_cases hklast : n - 1 = k
    · rw [if_pos hklast, if_neg hk0, if_pos (show n = k + 1 by omega)]
      push_cast
      ring
    · rw [if_neg hklast, if_neg hk0, if_neg (show ¬n = k + 1 by omega)]
      push_cast
      ring

/-- C6 witness: prepending `{af = 1, het = 3, hom = 4}` to a one-record valid
input with 10 bins adds 3 to bin 0 and 4 to bin 9. -/
theorem C6_af_one_witness :
    countsOf ((⟨1, 3, 4⟩ : VariantStatsRecord) :: [(⟨1/2, 1, 2⟩ : VariantStatsRecord)]) 10
      = (countsOf [(⟨1/2, 1, 2⟩ : VariantStatsRecord)] 10).map
          (fun c => addAt (addAt c 0 ((3 : ℕ) : ℤ)) (10 - 1) ((4 : ℕ) : ℤ)) :=
  C6_af_one [⟨1/2, 1, 2⟩] 10 3 4 (by norm_num)
    (by
      intro r hr
      rw [List.mem_singleton] at hr
      subst hr
      norm_num)

/-- C7: a record with allele frequency exactly 0 has `pRA = 0` and
`pAA = 0`; prepending it to any valid input adds both its `het_count` and its
`hom_alt_count` to the first bin's count, and changes nothing else. -/
theorem C7_af_zero (records : List VariantStatsRecord) (n h m : ℕ)
    (hn : 1 ≤ n) (hv : validInput records) :
    countsOf ((⟨0, h, m⟩ : VariantStatsRecord) :: records) n
      = (countsOf records n).map
          (fun c => addAt c 0 (((h : ℕ) : ℤ) + ((m : ℕ) : ℤ))) := by
  have hhet : hetBin n (⟨0, h, m⟩ : VariantStatsRecord) = 1 := by
    have hp : pRA ((⟨0, h, m⟩ : VariantStatsRecord).allele_frequency) = 0 := by
      norm_num [pRA]
    rw [hetBin, hp, digitize_zero_val hn]
  have hhom : homBin n (⟨0, h, m⟩ : VariantStatsRecord) = 1 := by
    have hp : pAA ((⟨0, h, m⟩ : VariantStatsRecord).allele_frequency) = 0 := by
      norm_num [pAA]
    rw [homBin, hp, digitize_zero_val hn]
  have Hrec := bins_le_of_valid hn hv
  have Hcons : ∀ r ∈ (⟨0, h, m⟩ : VariantStatsRecord) :: records,
      hetBin n r ≤ n ∧ homBin n r ≤ n := by
    intro r hr
    rcases List.mem_cons.1 hr with h1 | h1
    · subst h1
      rw [hhet, hhom]
      omega
    · exact Hrec r h1
  have hcontrib : ∀ k, contrib ((⟨0, h, m⟩ : VariantStatsRecord) :: records) n k
      = ((if 1 = k + 1 then h else 0) + (if 1 = k + 1 then m else 0))
        + contrib records n k := by
    intro k
    simp [contrib, hhet, hhom]
  rw [countsOf, countsOf, get_prob_dist_eq _ n Hcons, get_prob_dist_eq _ n Hrec]
  simp only [Option.map_some', List.map_map]
  congr 1
  have e1 : ∀ (l : List VariantStatsRecord), (List.range n).map
      (HistRow.prob_dist ∘ fun k => (⟨edgeVal n k, edgeVal n (k + 1),
        (contrib l n k : ℤ)⟩ : HistRow))
      = (List.range n).map (fun k => ((contrib l n k : ℕ) : ℤ)) := fun _ => rfl
  rw [e1, e1]
  rw [addAt_map_range (show 0 < n by omega) (fun k => ((contrib records n k : ℕ) : ℤ))]
  refine List.map_congr_left ?_
  intro k hk
  rw [hcontrib k]
  by_cases hk0 : (0 : ℕ) = k
  · have hc : (1 : ℕ) = k + 1 := by omega
    rw [if_pos hc, if_pos hc, if_pos hk0]
    push_cast
    ring
  · have hc : ¬(1 : ℕ) = k + 1 := by omega
    rw [if_neg hc, if_neg hc, if_neg hk0]
    push_cast
    ring

/-- C7 witness: prepending `{af = 0, het = 3, hom = 4}` to a one-record valid
input with 10 bins adds 3 + 4 to bin 0. -/
theorem C7_af_zero_witness :
    countsOf ((⟨0, 3, 4⟩ : VariantStatsRecord) :: [(⟨1/2, 1, 2⟩ : VariantStatsRecord)]) 10
      = (countsOf [(⟨1/2, 1, 2⟩ : VariantStatsRecord)] 10).map
          (fun c => addAt c 0 (((3 : ℕ) : ℤ) + ((4 : ℕ) : ℤ))) :=
  C7_af_zero [⟨1/2, 1, 2⟩] 10 3 4 (by norm_num)
    (by
      intro r hr
      rw [List.mem_singleton] at hr
      subst hr
      norm_num)

/-- C8: for valid input and `num_bins = n >= 1` the computation succeeds,
every output count is the (exactly representable) truncation of a sum of
natural-number weighted contributions — the natural number `contrib` cast to
an integer — and in particular every count is non-negative. -/
theorem C8_counts_nonneg (records : List VariantStatsRecord) (n : ℕ)
    (hn : 1 ≤ n) (hv : validInput records) :
    countsOf records n
      = some ((List.range n).map (fun k => ((contrib records n k : ℕ) : ℤ))) ∧
    ((countsOf records n).getD []).all (fun x => decide (0 ≤ x)) = true := by
  have hmain : countsOf records n
      = some ((List.range n).map (fun k => ((contrib records n k : ℕ) : ℤ))) := by
    rw [countsOf, get_prob_dist_eq records n (bins_le_of_valid hn hv)]
    simp only [Option.map_some', List.map_map]
    rfl
  refine ⟨hmain, ?_⟩
  rw [hmain]
  simp only [Option.getD_some, List.all_eq_true]
  intro x hx
  obtain ⟨k, _, rfl⟩ := List.mem_map.1 hx
  simp

/-- C8 witness: the non-negativity facts at the spec's scenario input. -/
theorem C8_counts_nonneg_witness :
    countsOf [(⟨1/2, 10, 5⟩ : VariantStatsRecord)] 10
      = some ((List.range 10).map
          (fun k => ((contrib [(⟨1/2, 10, 5⟩ : VariantStatsRecord)] 10 k : ℕ) : ℤ))) ∧
    ((countsOf [(⟨1/2, 10, 5⟩ : VariantStatsRecord)] 10).getD []).all
        (fun x => decide (0 ≤ x)) = true :=
  C8_counts_nonneg [⟨1/2, 10, 5⟩] 10 (by norm_num)
    (by
      intro r hr
      rw [List.mem_singleton] at hr
      subst hr
      norm_num)

/-- C9: `get_prob_dist` is a pure function of its two arguments — the
embedding is a total function, so calls on equal inputs yield equal outputs,
and no state outside the returned value exists to be mutated. -/
theorem C9_deterministic (records1 records2 : List VariantStatsRecord)
    (n1 n2 : ℕ) (h1 : records1 = records2) (h2 : n1 = n2) :
    get_prob_dist records1 n1 = get_prob_dist records2 n2 := by
  rw [h1, h2]

/-- C9 witness: two identical concrete calls agree. -/
theorem C9_deterministic_witness :
    get_prob_dist [(⟨1/2, 10, 5⟩ : VariantStatsRecord)] 10
      = get_prob_dist [(⟨1/2, 10, 5⟩ : VariantStatsRecord)] 10 :=
  C9_deterministic [⟨1/2, 10, 5⟩] [⟨1/2, 10, 5⟩] 10 10 rfl rfl

/-- C10 (amended from the code): for a record with negative allele frequency
`p` whose square still lies under the widened top edge (`p * p < 101/100`),
`get_prob_dist` raises no error: `pRA = 2 p (1 - p) < 0` digitizes to the
below-range bucket 0, whose weight is discarded by `count[1:]`, so the
record's `het_count` vanishes from the output while its `hom_alt_count` is
still accumulated into a regular bin — the output sums to `m` alone.  (For
`p * p >= 1.01` — e.g. `p = -2` — the hom histogram outgrows the het
histogram and the code fails instead; see the counterexample.) -/
theorem C10_negative_frequency (p : ℚ) (h m n : ℕ) (hn : 1 ≤ n)
    (hp : p < 0) (hsq : p * p < 101 / 100) :
    digitize (pRA p) (binEdges n) = 0 ∧
    countsOf [(⟨p, h, m⟩ : VariantStatsRecord)] n ≠ none ∧
    ((countsOf [(⟨p, h, m⟩ : VariantStatsRecord)] n).getD []).sum = ((m : ℕ) : ℤ) := by
  have hra : digitize (pRA p) (binEdges n) = 0 :=
    digitize_of_neg (pRA_neg_of_neg hp) n
  have haa_le : digitize (pAA p) (binEdges n) ≤ n := by
    refine digitize_le hn ?_
    have : pAA p = p * p := rfl
    rw [this]
    linarith
  have haa_ge : 1 ≤ digitize (pAA p) (binEdges n) :=
    one_le_digitize hn (pAA_nonneg p)
  have H : ∀ r ∈ [(⟨p, h, m⟩ : VariantStatsRecord)],
      hetBin n r ≤ n ∧ homBin n r ≤ n := by
    intro r hr
    rw [List.mem_singleton] at hr
    subst hr
    exact ⟨by rw [hetBin]; rw [hra]; omega, haa_le⟩
  rw [countsOf, get_prob_dist_eq _ n H]
  refine ⟨hra, by simp, ?_⟩
  simp only [Option.map_some', List.map_map, Option.getD_some]
  have e1 : (List.range n).map
      (HistRow.prob_dist ∘ fun k => (⟨edgeVal n k, edgeVal n (k + 1),
        (contrib [(⟨p, h, m⟩ : VariantStatsRecord)] n k : ℤ)⟩ : HistRow))
      = (List.range n).map
          (fun k => ((contrib [(⟨p, h, m⟩ : VariantStatsRecord)] n k : ℕ) : ℤ)) := rfl
  rw [e1, sum_map_natCast_int, sum_contrib]
  have hhet0 : hetBin n (⟨p, h, m⟩ : VariantStatsRecord) = 0 := hra
  simp only [List.map_cons, List.map_nil, List.sum_cons, List.sum_nil, hhet0]
  rw [if_neg (by omega), if_pos ⟨haa_ge, haa_le⟩]
  omega

/-- C10 witness: `p = -1/2`, ten bins: the het count 7 is silently dropped
and the output sums to the hom count 3 only. -/
theorem C10_negative_frequency_witness :
    digitize (pRA (-1/2)) (binEdges 10) = 0 ∧
    countsOf [(⟨-1/2, 7, 3⟩ : VariantStatsRecord)] 10 ≠ none ∧
    ((countsOf [(⟨-1/2, 7, 3⟩ : VariantStatsRecord)] 10).getD []).sum = ((3 : ℕ) : ℤ) :=
  C10_negative_frequency (-1/2) 7 3 10 (by norm_num) (by norm_num) (by norm_num)

/-- C10 counterexample: the claim promises "no error" for every negative
allele frequency, but at `p = -2` (so `pAA = 4`, digitizing past the widened
top edge) the hom-side histogram is one entry longer than the het-side one
and the numpy broadcast fails: the code errors out instead of producing a
result. -/
theorem C10_negative_frequency_counterexample :
    get_prob_dist [(⟨-2, 7, 3⟩ : VariantStatsRecord)] 10 = none := by
  have hra : digitize (pRA (-2)) (binEdges 10) = 0 := by
    norm_num [digitize, pRA, binEdges_ten, List.countP_cons]
  have haa : digitize (pAA (-2)) (binEdges 10) = 11 := by
    norm_num [digitize, pAA, binEdges_ten, List.countP_cons]
  simp only [get_prob_dist, List.map_cons, List.map_nil]
  rw [hra, haa]
  simp [bincount, maxIndexP1]

/-- C1 (amended from the code): `get_prob_dist` performs no argument
validation and raises no `InvalidArgument`.  With `num_bins = 0` a record
whose `pRA` and `pAA` both fall below the single (widened) edge produces an
EMPTY successful result — its counts silently vanish — rather than an error.
An allele frequency of `3/2` does make the call fail, but only through the
downstream array-shape mismatch (`pAA = 9/4` digitizes past the widened top
edge, so the hom histogram is one entry longer than the het histogram and
numpy's `a + b` broadcast fails), not through a synchronous argument
check. -/
theorem C1_no_validation (h m : ℕ) :
    get_prob_dist [(⟨0, h, m⟩ : VariantStatsRecord)] 0 = some [] ∧
    get_prob_dist [(⟨3/2, 10, 5⟩ : VariantStatsRecord)] 10 = none := by
  constructor
  · have hdig : digitize 0 (binEdges 0) = 0 := by
      norm_num [digitize, binEdges_zero, List.countP_cons]
    have H : ∀ r ∈ [(⟨0, h, m⟩ : VariantStatsRecord)],
        hetBin 0 r ≤ 0 ∧ homBin 0 r ≤ 0 := by
      intro r hr
      rw [List.mem_singleton] at hr
      subst hr
      constructor
      · rw [hetBin]
        have hp : pRA ((⟨0, h, m⟩ : VariantStatsRecord).allele_frequency) = 0 := by
          norm_num [pRA]
        rw [hp, hdig]
      · rw [homBin]
        have hp : pAA ((⟨0, h, m⟩ : VariantStatsRecord).allele_frequency) = 0 := by
          norm_num [pAA]
        rw [hp, hdig]
    rw [get_prob_dist_eq _ 0 H]
    simp
  · have hra : digitize (pRA (3/2)) (binEdges 10) = 0 := by
      norm_num [digitize, pRA, binEdges_ten, List.countP_cons]
    have haa : digitize (pAA (3/2)) (binEdges 10) = 11 := by
      norm_num [digitize, pAA, binEdges_ten, List.countP_cons]
    simp only [get_prob_dist, List.map_cons, List.map_nil]
    rw [hra, haa]
    simp [bincount, maxIndexP1]

/-- C1 counterexample: with `num_bins = 0` and an (even non-degenerate)
record with allele frequency 0, the code returns an empty result with no
error — refuting "`num_bins = 0` raises `InvalidArgument`" and "no partial
results are produced": the record's 5 + 3 observations are silently
discarded. -/
theorem C1_no_validation_counterexample :
    get_prob_dist [(⟨0, 5, 3⟩ : VariantStatsRecord)] 0 = some [] := by
  have hdig : digitize 0 (binEdges 0) = 0 := by
    norm_num [digitize, binEdges_zero, List.countP_cons]
  have H : ∀ r ∈ [(⟨0, 5, 3⟩ : VariantStatsRecord)],
      hetBin 0 r ≤ 0 ∧ homBin 0 r ≤ 0 := by
    intro r hr
    rw [List.mem_singleton] at hr
    subst hr
    constructor
    · rw [hetBin]
      have hp : pRA ((⟨0, 5, 3⟩ : VariantStatsRecord).allele_frequency) = 0 := by
        norm_num [pRA]
      rw [hp, hdig]
    · rw [homBin]
      have hp : pAA ((⟨0, 5, 3⟩ : VariantStatsRecord).allele_frequency) = 0 := by
        norm_num [pAA]
      rw [hp, hdig]
  rw [get_prob_dist_eq _ 0 H]
  simp
